import Mathlib

/-!
# Verification of the MM-Detector matching core

Shallow embedding of the matching/classification logic of the two scripts
`app.py` and `Home.py` of the MM-Detector repository, together with proofs
about it.

The similarity primitive of both scripts is `rapidfuzz.fuzz.ratio`, the
normalized indel similarity: for strings `s`, `t` it equals
`200 * lcs(s, t) / (|s| + |t|)` (and `100` when both strings are empty),
where `lcs` is the length of the longest common subsequence.
`fuzz.token_sort_ratio` (used by `app.py`) first splits each string on
whitespace, sorts the tokens, rejoins them with single spaces and then
applies the same ratio.  Scores are modelled as exact rationals.
-/

namespace MMDetector

/-- Longest-common-subsequence length (reference recursion). -/
def lcs : List Char → List Char → Nat
  | [], _ => 0
  | _ :: _, [] => 0
  | a :: as, b :: bs =>
    if a = b then lcs as bs + 1
    else max (lcs (a :: as) bs) (lcs as (b :: bs))

/-- All suffixes of a list, longest first, ending with `[]`. -/
def sufs : List Char → List (List Char)
  | [] => [[]]
  | b :: bs => (b :: bs) :: sufs bs

/-- One step of the LCS dynamic program: from the row of values
`lcs as (drop j bs)` compute the row for `a :: as`. -/
def lcsStep (a : Char) : List Char → List Nat → List Nat
  | [], _ => [0]
  | b :: bs, prev =>
    let rest := lcsStep a bs prev.tail
    let v := if a = b then prev.tail.headD 0 + 1
             else max (rest.headD 0) (prev.headD 0)
    v :: rest

/-- The full DP table row for `as` against all suffixes of `bs`. -/
def lcsRows (as bs : List Char) : List Nat :=
  as.foldr (fun a prev => lcsStep a bs prev) (List.replicate (bs.length + 1) 0)

/-- Efficient LCS length (quadratic dynamic program). -/
def lcsLen (as bs : List Char) : Nat :=
  (lcsRows as bs).headD 0

theorem lcs_nil_right (as : List Char) : lcs as [] = 0 := by
  cases as <;> simp [lcs]

theorem sufs_ne_nil (bs : List Char) : sufs bs ≠ [] := by
  cases bs <;> simp [sufs]

theorem sufs_head (bs : List Char) (f : List Char → Nat) :
    ((sufs bs).map f).headD 0 = f bs := by
  cases bs <;> simp [sufs]

theorem lcsStep_eq (a : Char) (as' : List Char) :
    ∀ bs : List Char,
      lcsStep a bs ((sufs bs).map (lcs as')) = (sufs bs).map (lcs (a :: as'))
  | [] => by simp [lcsStep, sufs, lcs_nil_right]
  | b :: bs => by
    have ih := lcsStep_eq a as' bs
    simp only [sufs, List.map_cons, lcsStep, List.tail_cons]
    rw [ih]
    congr 1
    rw [sufs_head bs (lcs as'), sufs_head bs (lcs (a :: as'))]
    simp [lcs]

theorem lcsRows_nil (bs : List Char) :
    (sufs bs).map (lcs []) = List.replicate (bs.length + 1) 0 := by
  induction bs with
  | nil => simp [sufs, lcs]
  | cons b bs ih => simp [sufs, lcs, ih, List.replicate_succ]

theorem lcsRows_eq (as bs : List Char) :
    lcsRows as bs = (sufs bs).map (lcs as) := by
  induction as with
  | nil => simp [lcsRows, lcsRows_nil]
  | cons a as ih =>
    simp only [lcsRows, List.foldr_cons] at *
    rw [ih, lcsStep_eq]

/-- The dynamic program computes the LCS length. -/
theorem lcsLen_eq (as bs : List Char) : lcsLen as bs = lcs as bs := by
  rw [lcsLen, lcsRows_eq, sufs_head]

theorem lcs_le_left : ∀ as bs : List Char, lcs as bs ≤ as.length
  | [], _ => by simp [lcs]
  | _ :: _, [] => by simp [lcs]
  | a :: as, b :: bs => by
    simp only [lcs]
    split
    · exact Nat.succ_le_succ (lcs_le_left as bs)
    · exact max_le (lcs_le_left (a :: as) bs)
        (Nat.le_succ_of_le (lcs_le_left as (b :: bs)))

theorem lcs_le_right : ∀ as bs : List Char, lcs as bs ≤ bs.length
  | [], bs => by simp [lcs]
  | _ :: _, [] => by simp [lcs]
  | a :: as, b :: bs => by
    simp only [lcs]
    split
    · exact Nat.succ_le_succ (lcs_le_right as bs)
    · exact max_le (Nat.le_succ_of_le (lcs_le_right (a :: as) bs))
        (lcs_le_right as (b :: bs))

theorem lcs_self : ∀ as : List Char, lcs as as = as.length
  | [] => by simp [lcs]
  | a :: as => by simp [lcs, lcs_self as]

/-- `rapidfuzz.fuzz.ratio` on character lists, as an exact rational:
normalized indel similarity scaled to 0–100 (both-empty convention 100). -/
def ratioQ (s t : List Char) : ℚ :=
  if s.length + t.length = 0 then 100
  else 200 * (lcsLen s t : ℚ) / ((s.length : ℚ) + (t.length : ℚ))

theorem ratioQ_nonneg (s t : List Char) : 0 ≤ ratioQ s t := by
  rw [ratioQ]
  split
  · norm_num
  · apply div_nonneg
    · positivity
    · positivity

theorem ratioQ_le_100 (s t : List Char) : ratioQ s t ≤ 100 := by
  rw [ratioQ]
  split
  next h => exact le_refl 100
  next h =>
    have hpos : (0 : ℚ) < (s.length : ℚ) + (t.length : ℚ) := by
      have : 0 < s.length + t.length := Nat.pos_of_ne_zero h
      exact_mod_cast this
    rw [div_le_iff₀ hpos]
    have h1 : lcsLen s t ≤ s.length := by rw [lcsLen_eq]; exact lcs_le_left s t
    have h2 : lcsLen s t ≤ t.length := by rw [lcsLen_eq]; exact lcs_le_right s t
    have : (lcsLen s t : ℚ) + (lcsLen s t : ℚ) ≤ (s.length : ℚ) + (t.length : ℚ) := by
      exact_mod_cast Nat.add_le_add h1 h2
    nlinarith

theorem ratioQ_self (s : List Char) : ratioQ s s = 100 := by
  rw [ratioQ]
  split
  · rfl
  next h =>
    have hlen : s.length ≠ 0 := by
      intro hz
      exact h (by omega)
    have hpos : (0 : ℚ) < (s.length : ℚ) := by exact_mod_cast Nat.pos_of_ne_zero hlen
    rw [lcsLen_eq, lcs_self]
    field_simp
    ring

/-- `rapidfuzz.fuzz.ratio` on Lean strings. -/
def strSim (s t : String) : ℚ := ratioQ s.data t.data

/-- Python `str.lower()`, character by character (kernel-computable stand-in
for `String.toLower`, which it matches on the ASCII names handled here). -/
def lowerStr (s : String) : String := ⟨s.data.map Char.toLower⟩

/-- Python `str.strip()`: drop leading and trailing whitespace. -/
def trimChars (l : List Char) : List Char :=
  ((l.dropWhile Char.isWhitespace).reverse.dropWhile Char.isWhitespace).reverse

/-- Python `str.strip()` on strings (kernel-computable stand-in for
`String.trim`). -/
def trimStr (s : String) : String := ⟨trimChars s.data⟩

/-- Python `str.split()` with no separator: whitespace runs delimit tokens,
no empty tokens.  `acc` holds the current token reversed. -/
def splitWSAux : List Char → List Char → List (List Char)
  | [], acc => if acc.isEmpty then [] else [acc.reverse]
  | c :: cs, acc =>
    if c.isWhitespace then
      if acc.isEmpty then splitWSAux cs [] else acc.reverse :: splitWSAux cs []
    else splitWSAux cs (c :: acc)

/-- Python `str.split()` on character lists. -/
def splitWS (l : List Char) : List (List Char) := splitWSAux l []

/-- The whitespace-delimited tokens of a string. -/
def pyTokens (s : String) : List (List Char) := splitWS s.data

/-- Lexicographic comparison of character lists by code point, the order
Python's `sorted` uses on strings. -/
def lexLe : List Char → List Char → Bool
  | [], _ => true
  | _ :: _, [] => false
  | a :: as, b :: bs => if a = b then lexLe as bs else decide (a < b)

theorem lexLe_total : ∀ a b : List Char, lexLe a b = true ∨ lexLe b a = true
  | [], _ => Or.inl rfl
  | _ :: _, [] => Or.inr rfl
  | a :: as, b :: bs => by
    by_cases hab : a = b
    · subst hab
      simpa [lexLe] using lexLe_total as bs
    · rcases lt_trichotomy a b with h | h | h
      · simp [lexLe, hab, h]
      · exact absurd h hab
      · simp [lexLe, hab, Ne.symm hab, not_lt_of_gt h, h]

theorem lexLe_trans : ∀ a b c : List Char,
    lexLe a b = true → lexLe b c = true → lexLe a c = true
  | [], _, _, _, _ => rfl
  | _ :: _, [], _, h, _ => by simp [lexLe] at h
  | _ :: _, _ :: _, [], _, h => by simp [lexLe] at h
  | a :: as, b :: bs, c :: cs, h1, h2 => by
    by_cases hab : a = b <;> by_cases hbc : b = c
    · subst hab; subst hbc
      simp only [lexLe, if_pos rfl] at h1 h2 ⊢
      exact lexLe_trans as bs cs h1 h2
    · subst hab
      simpa [lexLe, hbc] using h2
    · subst hbc
      simpa [lexLe, hab] using h1
    · simp only [lexLe, if_neg hab] at h1
      simp only [lexLe, if_neg hbc] at h2
      have hac : a < c := lt_trans (of_decide_eq_true h1) (of_decide_eq_true h2)
      simp [lexLe, ne_of_lt hac, hac]

theorem lexLe_antisymm : ∀ a b : List Char,
    lexLe a b = true → lexLe b a = true → a = b
  | [], [], _, _ => rfl
  | [], _ :: _, _, h => by simp [lexLe] at h
  | _ :: _, [], h, _ => by simp [lexLe] at h
  | a :: as, b :: bs, h1, h2 => by
    by_cases hab : a = b
    · subst hab
      simp only [lexLe, if_pos rfl] at h1 h2
      rw [lexLe_antisymm as bs h1 h2]
    · simp only [lexLe, if_neg hab] at h1
      simp only [lexLe, if_neg (Ne.symm hab)] at h2
      exact absurd (of_decide_eq_true h1) (lt_asymm (of_decide_eq_true h2))

instance : DecidableRel (fun a b : List Char => lexLe a b = true) :=
  fun a b => inferInstanceAs (Decidable (lexLe a b = true))

instance : IsTotal (List Char) (fun a b => lexLe a b = true) := ⟨lexLe_total⟩

instance : IsTrans (List Char) (fun a b => lexLe a b = true) :=
  ⟨fun a b c => lexLe_trans a b c⟩

instance : IsAntisymm (List Char) (fun a b => lexLe a b = true) :=
  ⟨fun a b => lexLe_antisymm a b⟩

/-- Python `sorted` on the token list. -/
def sortTokens (ts : List (List Char)) : List (List Char) :=
  List.insertionSort (fun a b => lexLe a b = true) ts

/-- `" ".join(tokens)`. -/
def joinTok : List (List Char) → List Char
  | [] => []
  | [t] => t
  | t :: t' :: ts => t ++ ' ' :: joinTok (t' :: ts)

/-- `" ".join(sorted(s.split()))`, the token-sort normal form of a string. -/
def tokenSortChars (s : String) : List Char := joinTok (sortTokens (pyTokens s))

/-- `rapidfuzz.fuzz.token_sort_ratio`: the ratio of the token-sorted forms. -/
def tokenSortSim (s t : String) : ℚ :=
  ratioQ (tokenSortChars s) (tokenSortChars t)

theorem strSim_self (s : String) : strSim s s = 100 := ratioQ_self s.data

theorem sortTokens_eq_of_perm {l1 l2 : List (List Char)} (h : l1.Perm l2) :
    sortTokens l1 = sortTokens l2 := by
  unfold sortTokens
  exact List.eq_of_perm_of_sorted
    (((List.perm_insertionSort _ l1).trans h).trans
      (List.perm_insertionSort _ l2).symm)
    (List.sorted_insertionSort _ l1) (List.sorted_insertionSort _ l2)

/-- Token reorderings have the same token-sort normal form. -/
theorem tokenSortChars_eq_of_perm {s t : String}
    (h : (pyTokens s).Perm (pyTokens t)) : tokenSortChars s = tokenSortChars t := by
  unfold tokenSortChars
  rw [sortTokens_eq_of_perm h]

/-- `rapidfuzz.process.extractOne` with explicit running index:
returns the first choice attaining the highest score (strict improvement
while scanning right-to-left structured as a fold). -/
def extractOneAux (f : String → ℚ) : Nat → List String → Option (String × ℚ × Nat)
  | _, [] => none
  | i, c :: cs =>
    match extractOneAux f (i + 1) cs with
    | none => some (c, f c, i)
    | some (c', s', i') => if f c < s' then some (c', s', i') else some (c, f c, i)

/-- `rapidfuzz.process.extractOne` (no score cutoff): `none` iff the choice
list is empty, otherwise the first best `(choice, score, index)`. -/
def extractOne (f : String → ℚ) (cs : List String) : Option (String × ℚ × Nat) :=
  extractOneAux f 0 cs

/-- Status tiers of the `app.py` detector (`✅ Correct`, `⚠️ Possible
Mismatch`, `❌ Mismatch`). -/
inductive Status
  | correct
  | possibleMismatch
  | mismatch
deriving DecidableEq, Repr

/-- One row of the `app.py` results table. -/
structure AppResult where
  entered : String
  closestMatch : String
  matchScore : ℚ
  status : Status
deriving DecidableEq, Repr

/-- `app.py` detector for one entered name (lines 176–205): normalize,
run `extractOne` with `fuzz.token_sort_ratio` over the normalized reference
names, then classify with the 95/70 thresholds; with no match, the sentinel
`—`, score 0 and status Mismatch. -/
def appDetectOne (refs : List String) (med : String) : AppResult :=
  let medNorm := lowerStr (trimStr med)
  let refsDisplay := refs.map (fun r => trimStr r)
  let refsNorm := refsDisplay.map (fun r => lowerStr r)
  match extractOne (fun r => tokenSortSim medNorm r) refsNorm with
  | some (_, score, idx) =>
    { entered := med
      closestMatch := refsDisplay.getD idx ""
      matchScore := score
      status :=
        if 95 ≤ score then Status.correct
        else if 70 ≤ score then Status.possibleMismatch
        else Status.mismatch }
  | none =>
    { entered := med
      closestMatch := "—"
      matchScore := 0
      status := Status.mismatch }

/-- The `app.py` detection loop over the whole entered list. -/
def appDetect (refs : List String) (meds : List String) : List AppResult :=
  meds.map (appDetectOne refs)

/-- One row of the `Home.py` results table (`Mismatch` column is the
boolean `❌ Yes`/`✅ No` flag). -/
structure HomeResult where
  entered : String
  closestMatch : Option String
  matchScore : ℚ
  mismatch : Bool
deriving DecidableEq, Repr

/-- `fuzz.ratio(med.lower(), ref.lower())` (`Home.py` line 69). -/
def homeScore (med ref : String) : ℚ := strSim (lowerStr med) (lowerStr ref)

/-- The `Home.py` best-match loop (lines 66–72): start from `(None, 0)`
and replace the accumulator on strictly greater score. -/
def homeBestAux (med : String) : Option String × ℚ → List String → Option String × ℚ
  | acc, [] => acc
  | acc, r :: rs =>
    homeBestAux med
      (if acc.2 < homeScore med r then (some r, homeScore med r) else acc) rs

def homeBest (med : String) (refs : List String) : Option String × ℚ :=
  homeBestAux med (none, 0) refs

/-- `Home.py` detector for one entered name (lines 65–79). -/
def homeDetectOne (refs : List String) (med : String) : HomeResult :=
  let best := homeBest med refs
  { entered := med
    closestMatch := best.1
    matchScore := best.2
    mismatch := decide (best.2 < 90) }

/-- The `Home.py` detection loop over the whole entered list. -/
def homeDetect (refs : List String) (meds : List String) : List HomeResult :=
  meds.map (homeDetectOne refs)

/-- `Home.py`'s built-in reference list (`load_medicine_data`). -/
def homeRefs : List String :=
  ["Paracetamol", "Amoxicillin", "Ciprofloxacin", "Metformin", "Ibuprofen",
   "Azithromycin", "Cetirizine", "Omeprazole", "Atorvastatin", "Amlodipine"]

/-- `app.py`'s built-in reference names (`load_default_reference`). -/
def appRefs : List String :=
  ["Paracetamol", "Ibuprofen", "Metformin", "Amoxicillin", "Ciprofloxacin",
   "Cetirizine", "Omeprazole", "Atorvastatin", "Azithromycin", "Amlodipine",
   "Ashwagandha", "Triphala", "Chyawanprash"]

/-- Outcome of one press of the Detect button in `app.py` (lines 162–211):
either the empty-input warning (nothing computed, nothing logged) or the
results, which are both displayed and appended to the history file. -/
structure AppRunOutcome where
  warned : Bool
  results : List AppResult
  historyAppended : List AppResult
deriving DecidableEq, Repr

def appRun (refs : List String) (entered : List String) : AppRunOutcome :=
  if entered = [] then { warned := true, results := [], historyAppended := [] }
  else
    let rs := appDetect refs entered
    { warned := false, results := rs, historyAppended := rs }

/-- `needle` occurs at the start of `hay`. -/
def begMatch : List Char → List Char → Bool
  | [], _ => true
  | _ :: _, [] => false
  | a :: as, b :: bs => a = b && begMatch as bs

/-- `needle` occurs contiguously somewhere in `hay`. -/
def hasSub : List Char → List Char → Bool
  | [], needle => needle.isEmpty
  | b :: bs, needle => begMatch needle (b :: bs) || hasSub bs needle

/-- The characters Python's `re` module treats specially in a pattern. -/
def regexMeta : List Char :=
  ['.', '^', '$', '*', '+', '?', '\x7b', '\x7d', '[', ']', '\\', '|', '(', ')']

/-- A query that contains no regex metacharacter, so that a regex search
for it degenerates to substring containment. -/
def isLiteralPattern (q : String) : Bool :=
  q.data.all (fun c => !(regexMeta.contains c))

/-- `app.py` Search page (lines 237–239).  The mask is pandas
`str.contains(query, case=False, na=False)`, which by the pandas default
`regex=True` searches for the query as a case-insensitive *regular
expression*.  The embedding models the call only for queries free of
regex metacharacters, where the pattern matches a name exactly when the
query occurs in it as a substring; for a query containing a metacharacter
the result is `none` (outside the model). -/
def appSearch (q : String) (refs : List String) : Option (List String) :=
  if isLiteralPattern q then
    some (refs.filter (fun r => hasSub (lowerStr r).data (lowerStr q).data))
  else none

/-- `Home.py` Search page, filter phase (lines 103–107): keep the pairs
`(ref, fuzz.ratio(query.lower(), ref.lower()))` with score above 60,
in reference order. -/
def homeMatches (q : String) : List String → List (String × ℚ)
  | [] => []
  | r :: rs =>
    if 60 < homeScore q r then (r, homeScore q r) :: homeMatches q rs
    else homeMatches q rs

/-- Python's stable `sorted(matches, key=lambda x: -x[1])` as an insertion
sort: an element moves left past exactly the strictly smaller scores. -/
def sortByScore (l : List (String × ℚ)) : List (String × ℚ) :=
  List.insertionSort (fun a b => b.2 ≤ a.2) l

/-- `Home.py` Search page (lines 103–111). -/
def homeSearch (q : String) (refs : List String) : List (String × ℚ) :=
  sortByScore (homeMatches q refs)

/-- Index-decorated variant of `homeMatches`, recording each kept
reference's position in the reference list. -/
def homeMatchesI (q : String) : Nat → List String → List (Nat × String × ℚ)
  | _, [] => []
  | i, r :: rs =>
    if 60 < homeScore q r then (i, r, homeScore q r) :: homeMatchesI q (i + 1) rs
    else homeMatchesI q (i + 1) rs

/-- Index-decorated variant of `sortByScore` (same comparisons). -/
def sortByScoreI (l : List (Nat × String × ℚ)) : List (Nat × String × ℚ) :=
  List.insertionSort (fun a b => b.2.2 ≤ a.2.2) l

/-- Index-decorated variant of `homeSearch`. -/
def homeSearchI (q : String) (refs : List String) : List (Nat × String × ℚ) :=
  sortByScoreI (homeMatchesI q 0 refs)

/-! ## Characterization of `extractOne`: the first best match wins -/

theorem extractOneAux_spec (f : String → ℚ) :
    ∀ (cs : List String) (i0 : Nat), cs ≠ [] →
      ∃ k, k < cs.length ∧
        extractOneAux f i0 cs = some (cs.getD k "", f (cs.getD k ""), i0 + k) ∧
        (∀ j, j < cs.length → f (cs.getD j "") ≤ f (cs.getD k "")) ∧
        (∀ j, j < k → f (cs.getD j "") < f (cs.getD k ""))
  | [], _, h => absurd rfl h
  | [c], i0, _ =>
    ⟨0, Nat.zero_lt_one, by simp [extractOneAux],
      fun j hj => by
        have hj0 : j = 0 := by simp only [List.length_cons, List.length_nil] at hj; omega
        subst hj0; exact le_refl _,
      fun j hj => absurd hj (Nat.not_lt_zero j)⟩
  | c :: d :: ds, i0, _ => by
    obtain ⟨k', hk', heq, hmax, hfirst⟩ :=
      extractOneAux_spec f (d :: ds) (i0 + 1) (by simp)
    have hidx : i0 + 1 + k' = i0 + (k' + 1) := by omega
    by_cases hc : f c < f ((d :: ds).getD k' "")
    · refine ⟨k' + 1, by simp only [List.length_cons] at hk' ⊢; omega, ?_, ?_, ?_⟩
      · rw [extractOneAux, heq]
        simp only [if_pos hc, List.getD_cons_succ, hidx]
      · intro j hj
        cases j with
        | zero => simpa using le_of_lt hc
        | succ j =>
          simp only [List.getD_cons_succ]
          exact hmax j (by simp only [List.length_cons] at hj ⊢; omega)
      · intro j hj
        cases j with
        | zero => simpa using hc
        | succ j =>
          simp only [List.getD_cons_succ]
          exact hfirst j (Nat.lt_of_succ_lt_succ hj)
    · push_neg at hc
      refine ⟨0, Nat.zero_lt_succ _, ?_, ?_, ?_⟩
      · rw [extractOneAux, heq]
        simp only [if_neg (not_lt.mpr hc), List.getD_cons_zero, Nat.add_zero]
      · intro j hj
        cases j with
        | zero => simp
        | succ j =>
          simp only [List.getD_cons_zero, List.getD_cons_succ]
          exact le_trans (hmax j (by simp only [List.length_cons] at hj ⊢; omega)) hc
      · intro j hj
        exact absurd hj (Nat.not_lt_zero j)

/-- `process.extractOne` on a non-empty choice list: it returns the choice
at some index `k` with its score, every choice scores at most that score,
and every earlier choice scores strictly less (first-of-the-maxima). -/
theorem extractOne_spec (f : String → ℚ) (cs : List String) (h : cs ≠ []) :
    ∃ k, k < cs.length ∧
      extractOne f cs = some (cs.getD k "", f (cs.getD k ""), k) ∧
      (∀ j, j < cs.length → f (cs.getD j "") ≤ f (cs.getD k "")) ∧
      (∀ j, j < k → f (cs.getD j "") < f (cs.getD k "")) := by
  obtain ⟨k, hk, heq, hmax, hfirst⟩ := extractOneAux_spec f cs 0 h
  exact ⟨k, hk, by simpa using heq, hmax, hfirst⟩

theorem extractOne_nil (f : String → ℚ) : extractOne f [] = none := rfl

/-! ## Characterization of the `Home.py` best-match loop -/

theorem homeBestAux_const (med : String) :
    ∀ (refs : List String) (acc : Option String × ℚ),
      (∀ r ∈ refs, homeScore med r ≤ acc.2) → homeBestAux med acc refs = acc
  | [], acc, _ => rfl
  | r :: rs, acc, h => by
    have hr : homeScore med r ≤ acc.2 := h r (by simp)
    simp only [homeBestAux, if_neg (not_lt.mpr hr)]
    exact homeBestAux_const med rs acc (fun x hx => h x (by simp [hx]))

theorem homeBestAux_spec (med : String) :
    ∀ (refs : List String) (acc : Option String × ℚ),
      (∃ r ∈ refs, acc.2 < homeScore med r) →
      ∃ k, k < refs.length ∧
        homeBestAux med acc refs
          = (some (refs.getD k ""), homeScore med (refs.getD k "")) ∧
        acc.2 < homeScore med (refs.getD k "") ∧
        (∀ j, j < refs.length →
          homeScore med (refs.getD j "") ≤ homeScore med (refs.getD k "")) ∧
        (∀ j, j < k →
          homeScore med (refs.getD j "") < homeScore med (refs.getD k ""))
  | [], acc, h => absurd h (by simp)
  | r :: rs, acc, h => by
    by_cases hr : acc.2 < homeScore med r
    · by_cases hall : ∀ x ∈ rs, homeScore med x ≤ homeScore med r
      · refine ⟨0, Nat.zero_lt_succ _, ?_, by simpa using hr, ?_, ?_⟩
        · simp only [homeBestAux, if_pos hr, List.getD_cons_zero]
          exact homeBestAux_const med rs (some r, homeScore med r) hall
        · intro j hj
          cases j with
          | zero => simp
          | succ j =>
            simp only [List.getD_cons_zero, List.getD_cons_succ]
            have hj' : j < rs.length := by
              simp only [List.length_cons] at hj; omega
            have hmem : rs.getD j "" ∈ rs := by
              rw [List.getD_eq_getElem rs "" hj']
              exact List.getElem_mem _
            exact hall _ hmem
        · intro j hj
          exact absurd hj (Nat.not_lt_zero j)
      · push_neg at hall
        obtain ⟨x, hx, hgt⟩ := hall
        obtain ⟨k', hk', heq, hacc', hmax, hfirst⟩ :=
          homeBestAux_spec med rs (some r, homeScore med r) ⟨x, hx, hgt⟩
        refine ⟨k' + 1, by simpa using Nat.succ_lt_succ hk', ?_, ?_, ?_, ?_⟩
        · simp only [homeBestAux, if_pos hr, List.getD_cons_succ]
          exact heq
        · simp only [List.getD_cons_succ]
          exact lt_trans hr hacc'
        · intro j hj
          cases j with
          | zero =>
            simp only [List.getD_cons_zero, List.getD_cons_succ]
            exact le_of_lt hacc'
          | succ j =>
            simp only [List.getD_cons_succ]
            exact hmax j (by simp only [List.length_cons] at hj ⊢; omega)
        · intro j hj
          cases j with
          | zero =>
            simp only [List.getD_cons_zero, List.getD_cons_succ]
            exact hacc'
          | succ j =>
            simp only [List.getD_cons_succ]
            exact hfirst j (Nat.lt_of_succ_lt_succ hj)
    · push_neg at hr
      have hex : ∃ x ∈ rs, acc.2 < homeScore med x := by
        obtain ⟨x, hx, hgt⟩ := h
        rcases List.mem_cons.mp hx with hxr | hxs
        · subst hxr; exact absurd hgt (not_lt.mpr hr)
        · exact ⟨x, hxs, hgt⟩
      obtain ⟨k', hk', heq, hacc', hmax, hfirst⟩ := homeBestAux_spec med rs acc hex
      refine ⟨k' + 1, by simpa using Nat.succ_lt_succ hk', ?_, ?_, ?_, ?_⟩
      · simp only [homeBestAux, if_neg (not_lt.mpr hr), List.getD_cons_succ]
        exact heq
      · simp only [List.getD_cons_succ]
        exact hacc'
      · intro j hj
        cases j with
        | zero =>
          simp only [List.getD_cons_zero, List.getD_cons_succ]
          exact le_trans hr (le_of_lt hacc')
        | succ j =>
          simp only [List.getD_cons_succ]
          exact hmax j (by simp only [List.length_cons] at hj ⊢; omega)
      · intro j hj
        cases j with
        | zero =>
          simp only [List.getD_cons_zero, List.getD_cons_succ]
          exact lt_of_le_of_lt hr hacc'
        | succ j =>
          simp only [List.getD_cons_succ]
          exact hfirst j (Nat.lt_of_succ_lt_succ hj)

/-! ## Score bounds -/

theorem homeScore_nonneg (med ref : String) : 0 ≤ homeScore med ref :=
  ratioQ_nonneg _ _

theorem homeScore_le_100 (med ref : String) : homeScore med ref ≤ 100 :=
  ratioQ_le_100 _ _

theorem tokenSortSim_nonneg (s t : String) : 0 ≤ tokenSortSim s t :=
  ratioQ_nonneg _ _

theorem tokenSortSim_le_100 (s t : String) : tokenSortSim s t ≤ 100 :=
  ratioQ_le_100 _ _

theorem homeBestAux_bounds (med : String) :
    ∀ (refs : List String) (acc : Option String × ℚ),
      0 ≤ acc.2 → acc.2 ≤ 100 →
      0 ≤ (homeBestAux med acc refs).2 ∧ (homeBestAux med acc refs).2 ≤ 100
  | [], _, h0, h1 => ⟨h0, h1⟩
  | r :: rs, acc, h0, h1 => by
    rw [homeBestAux]
    split
    · exact homeBestAux_bounds med rs _ (homeScore_nonneg med r) (homeScore_le_100 med r)
    · exact homeBestAux_bounds med rs acc h0 h1

theorem extractOne_score (f : String → ℚ) (cs : List String) (c : String)
    (s : ℚ) (i : Nat) (h : extractOne f cs = some (c, s, i)) : s = f c := by
  cases cs with
  | nil => simp [extractOne, extractOneAux] at h
  | cons d ds =>
    obtain ⟨k, _, heq, _, _⟩ := extractOne_spec f (d :: ds) (by simp)
    rw [heq] at h
    simp only [Option.some.injEq, Prod.mk.injEq] at h
    obtain ⟨h1, h2, _⟩ := h
    rw [← h2, ← h1]

/-! ## Search: stability of the Python sort -/

theorem orderedInsert_pairwise_lex (a : Nat × String × ℚ) :
    ∀ m : List (Nat × String × ℚ),
      m.Pairwise (fun x y => y.2.2 < x.2.2 ∨ (x.2.2 = y.2.2 ∧ x.1 < y.1)) →
      (∀ b ∈ m, a.1 < b.1) →
      (List.orderedInsert (fun x y => y.2.2 ≤ x.2.2) a m).Pairwise
        (fun x y => y.2.2 < x.2.2 ∨ (x.2.2 = y.2.2 ∧ x.1 < y.1))
  | [], _, _ => List.pairwise_singleton _ _
  | y :: ys, hp, hidx => by
    rw [List.orderedInsert]
    split
    next hr =>
      refine List.Pairwise.cons ?_ hp
      intro z hz
      have hzle : z.2.2 ≤ a.2.2 := by
        rcases List.mem_cons.mp hz with h | h
        · subst h; exact hr
        · rcases List.rel_of_pairwise_cons hp h with h' | h'
          · exact le_trans (le_of_lt h') hr
          · exact le_trans (le_of_eq h'.1.symm) hr
      rcases lt_or_eq_of_le hzle with h' | h'
      · exact Or.inl h'
      · exact Or.inr ⟨h'.symm, hidx z hz⟩
    next hr =>
      refine List.Pairwise.cons ?_
        (orderedInsert_pairwise_lex a ys hp.of_cons
          (fun b hb => hidx b (List.mem_cons_of_mem y hb)))
      intro z hz
      rcases (List.mem_orderedInsert _).mp hz with h | h
      · subst h
        exact Or.inl (lt_of_not_le hr)
      · exact List.rel_of_pairwise_cons hp h

theorem sortByScoreI_pairwise_lex :
    ∀ m : List (Nat × String × ℚ),
      m.Pairwise (fun x y => x.1 < y.1) →
      (sortByScoreI m).Pairwise
        (fun x y => y.2.2 < x.2.2 ∨ (x.2.2 = y.2.2 ∧ x.1 < y.1))
  | [], _ => List.Pairwise.nil
  | a :: m, hp => by
    have ih := sortByScoreI_pairwise_lex m hp.of_cons
    simp only [sortByScoreI] at ih ⊢
    rw [List.insertionSort]
    refine orderedInsert_pairwise_lex a _ ih ?_
    intro b hb
    exact List.rel_of_pairwise_cons hp ((List.mem_insertionSort _).mp hb)

theorem homeMatchesI_idx_le (q : String) :
    ∀ (i : Nat) (refs : List String), ∀ p ∈ homeMatchesI q i refs, i ≤ p.1
  | _, [], p, hp => by simp [homeMatchesI] at hp
  | i, r :: rs, p, hp => by
    rw [homeMatchesI] at hp
    split at hp
    · rcases List.mem_cons.mp hp with h | h
      · subst h; exact le_refl i
      · exact le_trans (Nat.le_succ i) (homeMatchesI_idx_le q (i + 1) rs p h)
    · exact le_trans (Nat.le_succ i) (homeMatchesI_idx_le q (i + 1) rs p hp)

theorem homeMatchesI_pairwise (q : String) :
    ∀ (i : Nat) (refs : List String),
      (homeMatchesI q i refs).Pairwise (fun x y => x.1 < y.1)
  | _, [] => List.Pairwise.nil
  | i, r :: rs => by
    rw [homeMatchesI]
    split
    · refine List.Pairwise.cons ?_ (homeMatchesI_pairwise q (i + 1) rs)
      intro p hp
      exact lt_of_lt_of_le (Nat.lt_succ_self i) (homeMatchesI_idx_le q (i + 1) rs p hp)
    · exact homeMatchesI_pairwise q (i + 1) rs

/-- Each decorated match records a true position/value pair of the
reference list, with the filter condition satisfied. -/
theorem homeMatchesI_faithful (q : String) :
    ∀ (i : Nat) (refs : List String), ∀ p ∈ homeMatchesI q i refs,
      i ≤ p.1 ∧ p.1 - i < refs.length ∧ refs.getD (p.1 - i) "" = p.2.1 ∧
        p.2.2 = homeScore q p.2.1 ∧ 60 < p.2.2
  | _, [], p, hp => by simp [homeMatchesI] at hp
  | i, r :: rs, p, hp => by
    rw [homeMatchesI] at hp
    split at hp
    next hcond =>
      rcases List.mem_cons.mp hp with h | h
      · subst h
        refine ⟨le_refl i, by simp, by simp, rfl, hcond⟩
      · obtain ⟨h1, h2, h3, h4, h5⟩ := homeMatchesI_faithful q (i + 1) rs p h
        have hd : p.1 - i = (p.1 - (i + 1)) + 1 := by omega
        refine ⟨by omega, ?_, ?_, h4, h5⟩
        · simp only [List.length_cons]; omega
        · rw [hd, List.getD_cons_succ]; exact h3
    next hcond =>
      obtain ⟨h1, h2, h3, h4, h5⟩ := homeMatchesI_faithful q (i + 1) rs p hp
      have hd : p.1 - i = (p.1 - (i + 1)) + 1 := by omega
      refine ⟨by omega, ?_, ?_, h4, h5⟩
      · simp only [List.length_cons]; omega
      · rw [hd, List.getD_cons_succ]; exact h3

theorem homeMatchesI_map (q : String) :
    ∀ (i : Nat) (refs : List String),
      (homeMatchesI q i refs).map (fun p => (p.2.1, p.2.2)) = homeMatches q refs
  | _, [] => rfl
  | i, r :: rs => by
    by_cases h : 60 < homeScore q r
    · simp [homeMatchesI, homeMatches, h, homeMatchesI_map q (i + 1) rs]
    · simp [homeMatchesI, homeMatches, h, homeMatchesI_map q (i + 1) rs]

theorem orderedInsert_map_proj (a : Nat × String × ℚ) :
    ∀ m : List (Nat × String × ℚ),
      (List.orderedInsert (fun x y => y.2.2 ≤ x.2.2) a m).map (fun p => (p.2.1, p.2.2))
        = List.orderedInsert (fun x y => y.2 ≤ x.2) (a.2.1, a.2.2)
            (m.map (fun p => (p.2.1, p.2.2)))
  | [] => rfl
  | y :: ys => by
    by_cases h : y.2.2 ≤ a.2.2
    · simp only [List.orderedInsert, List.map_cons, if_pos h]
    · simp only [List.orderedInsert, List.map_cons, if_neg h,
        orderedInsert_map_proj a ys]

theorem sortByScoreI_map_proj :
    ∀ m : List (Nat × String × ℚ),
      (sortByScoreI m).map (fun p => (p.2.1, p.2.2))
        = sortByScore (m.map (fun p => (p.2.1, p.2.2)))
  | [] => rfl
  | a :: m => by
    have ih := sortByScoreI_map_proj m
    simp only [sortByScoreI, sortByScore, List.insertionSort, List.map_cons] at ih ⊢
    rw [orderedInsert_map_proj, ih]

/-- The plain search result is the projection of the decorated one. -/
theorem homeSearch_eq_map (q : String) (refs : List String) :
    homeSearch q refs = (homeSearchI q refs).map (fun p => (p.2.1, p.2.2)) := by
  rw [homeSearch, homeSearchI, sortByScoreI_map_proj, homeMatchesI_map]

theorem homeMatches_mem (q : String) :
    ∀ (refs : List String) (x : String × ℚ),
      x ∈ homeMatches q refs ↔ x.1 ∈ refs ∧ x.2 = homeScore q x.1 ∧ 60 < x.2
  | [], x => by simp [homeMatches]
  | r :: rs, x => by
    by_cases h : 60 < homeScore q r
    · simp only [homeMatches, if_pos h, List.mem_cons, homeMatches_mem q rs x]
      constructor
      · rintro (hx | ⟨h1, h2, h3⟩)
        · subst hx; exact ⟨Or.inl rfl, rfl, h⟩
        · exact ⟨Or.inr h1, h2, h3⟩
      · rintro ⟨h1 | h1, h2, h3⟩
        · left
          rw [Prod.ext_iff]
          exact ⟨h1, by rw [h2, h1]⟩
        · exact Or.inr ⟨h1, h2, h3⟩
    · simp only [homeMatches, if_neg h, List.mem_cons, homeMatches_mem q rs x]
      constructor
      · rintro ⟨h1, h2, h3⟩
        exact ⟨Or.inr h1, h2, h3⟩
      · rintro ⟨h1 | h1, h2, h3⟩
        · exact absurd (h2 ▸ h3 : (60 : ℚ) < homeScore q x.1) (by rw [h1]; exact h)
        · exact ⟨h1, h2, h3⟩

/-! ## Auxiliary result-shape lemmas -/

theorem appDetectOne_score_bounds (refs : List String) (med : String) :
    0 ≤ (appDetectOne refs med).matchScore ∧
      (appDetectOne refs med).matchScore ≤ 100 := by
  cases h : extractOne (fun r => tokenSortSim (lowerStr (trimStr med)) r)
      ((refs.map (fun r => trimStr r)).map (fun r => lowerStr r)) with
  | none =>
    simp only [appDetectOne]
    rw [h]
    norm_num
  | some x =>
    obtain ⟨c, s, i⟩ := x
    have hs := extractOne_score _ _ _ _ _ h
    simp only [appDetectOne]
    rw [h, hs]
    exact ⟨tokenSortSim_nonneg _ _, tokenSortSim_le_100 _ _⟩

theorem appDetectOne_entered (refs : List String) (med : String) :
    (appDetectOne refs med).entered = med := by
  cases h : extractOne (fun r => tokenSortSim (lowerStr (trimStr med)) r)
      ((refs.map (fun r => trimStr r)).map (fun r => lowerStr r)) with
  | none =>
    simp only [appDetectOne]
    rw [h]
  | some x =>
    obtain ⟨c, s, i⟩ := x
    simp only [appDetectOne]
    rw [h]

/-! ## Claims

Concrete score evaluations are checked by the kernel; the Batteries
rational-arithmetic operations are restored to semireducible locally so
that `decide` can compute with exact rationals. -/

section ClaimEval

attribute [local semireducible] Rat.mul Rat.inv Rat.add Rat.sub

set_option maxRecDepth 100000

/-- C1 counterexample: the `Home.py` detector flags the entered name
`Paracet` (best score 700/9 ≈ 77.8, against `Paracetamol`) as a mismatch,
although the claimed 95/70 thresholds classify a score in [70, 95) as
Possible Mismatch, not Mismatch. -/
theorem C1_counterexample :
    (homeDetectOne homeRefs "Paracet").mismatch = true ∧
    70 ≤ (homeDetectOne homeRefs "Paracet").matchScore ∧
    (homeDetectOne homeRefs "Paracet").matchScore < 95 := by
  refine ⟨by decide, by decide, by decide⟩

/-- C1 (amended): in the `app.py` detector the status of every result is a
function of its best score alone via the fixed thresholds (score ≥ 95 ⇒
Correct, 70 ≤ score < 95 ⇒ Possible Mismatch, otherwise — including no
reference match — Mismatch); the `Home.py` detector instead assigns a
binary mismatch flag, set exactly when the best score is below 90. -/
theorem C1_status_thresholds (refs : List String) (med : String) :
    ((appDetectOne refs med).status =
      if 95 ≤ (appDetectOne refs med).matchScore then Status.correct
      else if 70 ≤ (appDetectOne refs med).matchScore then Status.possibleMismatch
      else Status.mismatch) ∧
    ((homeDetectOne refs med).mismatch =
      decide ((homeDetectOne refs med).matchScore < 90)) := by
  constructor
  · cases h : extractOne (fun r => tokenSortSim (lowerStr (trimStr med)) r)
        ((refs.map (fun r => trimStr r)).map (fun r => lowerStr r)) with
    | none =>
      simp only [appDetectOne, h]
      decide
    | some x =>
      obtain ⟨c, s, i⟩ := x
      simp only [appDetectOne, h]
  · rfl

/-- C2 counterexample: `Home.py` does not use the token-sort ratio: the
pair `500mg Paracetamol` / `Paracetamol 500mg` has identical token
multisets after lowercasing, yet its `Home.py` score is 1100/17 ≈ 64.7,
not 100. -/
theorem C2_counterexample :
    (pyTokens (lowerStr "500mg Paracetamol")).Perm
      (pyTokens (lowerStr "Paracetamol 500mg")) ∧
    homeScore "500mg Paracetamol" "Paracetamol 500mg" ≠ 100 := by
  constructor
  · have h1 : pyTokens (lowerStr "500mg Paracetamol") = ["500mg".data, "paracetamol".data] := by
      decide
    have h2 : pyTokens (lowerStr "Paracetamol 500mg") = ["paracetamol".data, "500mg".data] := by
      decide
    rw [h1, h2]
    exact List.Perm.swap _ _ _
  · decide

/-- C2 (amended): the `app.py` scorer is the token-sort ratio — split on
whitespace, sort tokens, rejoin, then normalized-edit-distance ratio — so
any two strings whose tokens are reorderings of each other score exactly
100.  (`Home.py` instead scores with the plain ratio; see the
counterexample.) -/
theorem C2_token_sort_reorder (s t : String)
    (h : (pyTokens s).Perm (pyTokens t)) : tokenSortSim s t = 100 := by
  rw [tokenSortSim, tokenSortChars_eq_of_perm h, ratioQ_self]

theorem C2_token_sort_reorder_witness :
    (pyTokens "500mg paracetamol").Perm (pyTokens "paracetamol 500mg") ∧
    tokenSortSim "500mg paracetamol" "paracetamol 500mg" = 100 := by
  have h1 : pyTokens "500mg paracetamol" = ["500mg".data, "paracetamol".data] := by decide
  have h2 : pyTokens "paracetamol 500mg" = ["paracetamol".data, "500mg".data] := by decide
  have hperm : (pyTokens "500mg paracetamol").Perm (pyTokens "paracetamol 500mg") := by
    rw [h1, h2]
    exact List.Perm.swap _ _ _
  exact ⟨hperm, C2_token_sort_reorder _ _ hperm⟩

/-- C3 counterexample: in `Home.py`, with the non-empty built-in reference
list, the entered name `Q` scores 0 against every entry; all entries tie
for the highest score, yet the loop returns the sentinel `None` instead of
the first reference entry. -/
theorem C3_counterexample :
    homeRefs ≠ [] ∧ (∀ r ∈ homeRefs, homeScore "Q" r = 0) ∧
    (homeDetectOne homeRefs "Q").closestMatch = none ∧
    (homeDetectOne homeRefs "Q").matchScore = 0 := by
  refine ⟨by decide, by decide, by decide, by decide⟩

/-- C3 (amended): `app.py`'s `extractOne` (with the token-sort scorer it
uses) returns, for every non-empty choice list, the entry with the highest
score, and on ties the first in reference order; in `Home.py` the same
holds whenever some entry scores strictly above 0, while an all-zero score
profile yields the sentinel instead (see the counterexample and C10). -/
theorem C3_best_match_selection (q med : String) (cs refs : List String)
    (hcs : cs ≠ []) (hpos : ∃ r ∈ refs, 0 < homeScore med r) :
    (∃ k, k < cs.length ∧
      extractOne (fun r => tokenSortSim q r) cs
        = some (cs.getD k "", tokenSortSim q (cs.getD k ""), k) ∧
      (∀ j, j < cs.length →
        tokenSortSim q (cs.getD j "") ≤ tokenSortSim q (cs.getD k "")) ∧
      (∀ j, j < k →
        tokenSortSim q (cs.getD j "") < tokenSortSim q (cs.getD k ""))) ∧
    (∃ k, k < refs.length ∧
      homeBest med refs = (some (refs.getD k ""), homeScore med (refs.getD k "")) ∧
      (∀ j, j < refs.length →
        homeScore med (refs.getD j "") ≤ homeScore med (refs.getD k "")) ∧
      (∀ j, j < k →
        homeScore med (refs.getD j "") < homeScore med (refs.getD k ""))) := by
  constructor
  · exact extractOne_spec (fun r => tokenSortSim q r) cs hcs
  · obtain ⟨k, hk, heq, _, hmax, hfirst⟩ :=
      homeBestAux_spec med refs (none, 0) hpos
    exact ⟨k, hk, heq, hmax, hfirst⟩

theorem C3_best_match_selection_witness :
    ((["a"] : List String) ≠ []) ∧ (∃ r ∈ (["a"] : List String), 0 < homeScore "a" r) ∧
    ((∃ k, k < (["a"] : List String).length ∧
      extractOne (fun r => tokenSortSim "a" r) ["a"]
        = some ((["a"] : List String).getD k "",
            tokenSortSim "a" ((["a"] : List String).getD k ""), k) ∧
      (∀ j, j < (["a"] : List String).length →
        tokenSortSim "a" ((["a"] : List String).getD j "")
          ≤ tokenSortSim "a" ((["a"] : List String).getD k "")) ∧
      (∀ j, j < k →
        tokenSortSim "a" ((["a"] : List String).getD j "")
          < tokenSortSim "a" ((["a"] : List String).getD k ""))) ∧
    (∃ k, k < (["a"] : List String).length ∧
      homeBest "a" ["a"] = (some ((["a"] : List String).getD k ""),
        homeScore "a" ((["a"] : List String).getD k "")) ∧
      (∀ j, j < (["a"] : List String).length →
        homeScore "a" ((["a"] : List String).getD j "")
          ≤ homeScore "a" ((["a"] : List String).getD k "")) ∧
      (∀ j, j < k →
        homeScore "a" ((["a"] : List String).getD j "")
          < homeScore "a" ((["a"] : List String).getD k "")))) :=
  ⟨by decide, by decide,
    C3_best_match_selection "a" "a" ["a"] ["a"] (by decide) (by decide)⟩

/-- C4: with an empty reference set, every query yields the sentinel
closest match, score 0 and Mismatch status: in `app.py` the sentinel `—`
with status `❌ Mismatch`, in `Home.py` the sentinel `None` with the
mismatch flag set. -/
theorem C4_empty_reference (med : String) :
    appDetectOne [] med =
      { entered := med, closestMatch := "—", matchScore := 0,
        status := Status.mismatch } ∧
    homeDetectOne [] med =
      { entered := med, closestMatch := none, matchScore := 0,
        mismatch := true } :=
  ⟨rfl, rfl⟩

/-- C5: every similarity score computed by either script lies in [0, 100],
and hence so does the score field of every result row. -/
theorem C5_score_bounds (s t : String) (refs : List String) (med : String) :
    (0 ≤ tokenSortSim s t ∧ tokenSortSim s t ≤ 100) ∧
    (0 ≤ homeScore s t ∧ homeScore s t ≤ 100) ∧
    (0 ≤ (appDetectOne refs med).matchScore ∧
      (appDetectOne refs med).matchScore ≤ 100) ∧
    (0 ≤ (homeDetectOne refs med).matchScore ∧
      (homeDetectOne refs med).matchScore ≤ 100) := by
  refine ⟨⟨tokenSortSim_nonneg s t, tokenSortSim_le_100 s t⟩,
    ⟨homeScore_nonneg s t, homeScore_le_100 s t⟩,
    appDetectOne_score_bounds refs med, ?_⟩
  exact homeBestAux_bounds med refs (none, 0) (le_refl 0) (by norm_num)

/-- C6: batch detection produces exactly one result per entered name, in
input order — projecting the entered field of the result list gives back
the input list, for both scripts. -/
theorem C6_batch_one_per_entry (refs : List String) (meds : List String) :
    (appDetect refs meds).length = meds.length ∧
    (appDetect refs meds).map (fun r => r.entered) = meds ∧
    (homeDetect refs meds).length = meds.length ∧
    (homeDetect refs meds).map (fun r => r.entered) = meds := by
  refine ⟨by simp [appDetect], ?_, by simp [homeDetect], ?_⟩
  · rw [appDetect, List.map_map]
    have h : ∀ x ∈ meds, ((fun r => r.entered) ∘ appDetectOne refs) x = id x :=
      fun x _ => appDetectOne_entered refs x
    rw [List.map_congr_left h, List.map_id]
  · rw [homeDetect, List.map_map]
    have h : ∀ x ∈ meds, ((fun r => r.entered) ∘ homeDetectOne refs) x = id x :=
      fun x _ => rfl
    rw [List.map_congr_left h, List.map_id]

/-- C7 counterexample: the `app.py` search page applies no ratio floor:
the metacharacter-free query `paracetamol1` has plain ratio
2200/23 ≈ 95.7 > 60 with `Paracetamol`, which the claim therefore
requires in the output, yet the `str.contains` search (substring
containment for this literal query) returns nothing. -/
theorem C7_counterexample :
    60 < homeScore "paracetamol1" "Paracetamol" ∧
    "Paracetamol" ∈ appRefs ∧
    appSearch "paracetamol1" appRefs = some [] := by
  refine ⟨by decide, by decide, by decide⟩

/-- C7 (amended): `Home.py`'s free-text search returns exactly the
reference entries whose plain ratio with the query exceeds 60, sorted
descending by score with ties kept in original reference order (the
decorated sort is sorted for the lexicographic score-then-index order and
projects onto the result); `app.py`'s search page instead filters with
pandas `str.contains`, a case-insensitive regular-expression search,
which for every query free of regex metacharacters keeps exactly the
names containing the query as a substring, in reference order. -/
theorem C7_search (q : String) (refs : List String) :
    (homeSearch q refs).Perm (homeMatches q refs) ∧
    (∀ x : String × ℚ, x ∈ homeSearch q refs ↔
      (x.1 ∈ refs ∧ x.2 = homeScore q x.1 ∧ 60 < x.2)) ∧
    homeSearch q refs = (homeSearchI q refs).map (fun p => (p.2.1, p.2.2)) ∧
    (homeSearchI q refs).Pairwise
      (fun x y => y.2.2 < x.2.2 ∨ (x.2.2 = y.2.2 ∧ x.1 < y.1)) ∧
    (∀ p ∈ homeSearchI q refs,
      p.1 < refs.length ∧ refs.getD p.1 "" = p.2.1 ∧
        p.2.2 = homeScore q p.2.1 ∧ 60 < p.2.2) ∧
    (homeSearch q refs).Pairwise (fun x y => y.2 ≤ x.2) ∧
    (isLiteralPattern q = true →
      ∃ l, appSearch q refs = some l ∧ l.Sublist refs ∧
        (∀ r, r ∈ l ↔
          (r ∈ refs ∧ hasSub (lowerStr r).data (lowerStr q).data = true))) := by
  have hperm : (homeSearch q refs).Perm (homeMatches q refs) := by
    rw [homeSearch, sortByScore]
    exact List.perm_insertionSort _ _
  have hlex : (homeSearchI q refs).Pairwise
      (fun x y => y.2.2 < x.2.2 ∨ (x.2.2 = y.2.2 ∧ x.1 < y.1)) := by
    rw [homeSearchI]
    exact sortByScoreI_pairwise_lex _ (homeMatchesI_pairwise q 0 refs)
  have hpermI : (homeSearchI q refs).Perm (homeMatchesI q 0 refs) := by
    rw [homeSearchI, sortByScoreI]
    exact List.perm_insertionSort _ _
  refine ⟨hperm, ?_, homeSearch_eq_map q refs, hlex, ?_, ?_, ?_⟩
  · intro x
    rw [hperm.mem_iff, homeMatches_mem]
  · intro p hp
    obtain ⟨_, h2, h3, h4, h5⟩ :=
      homeMatchesI_faithful q 0 refs p (hpermI.mem_iff.mp hp)
    rw [Nat.sub_zero] at h2 h3
    exact ⟨h2, h3, h4, h5⟩
  · rw [homeSearch_eq_map, List.pairwise_map]
    refine hlex.imp ?_
    intro a b h
    rcases h with h | h
    · exact le_of_lt h
    · exact le_of_eq h.1.symm
  · intro hq
    refine ⟨refs.filter (fun r => hasSub (lowerStr r).data (lowerStr q).data),
      ?_, List.filter_sublist refs, ?_⟩
    · rw [appSearch, if_pos hq]
    · intro r
      rw [List.mem_filter]

theorem C7_search_witness :
    isLiteralPattern "para" = true ∧
    (∃ l, appSearch "para" appRefs = some l ∧ l.Sublist appRefs ∧
      (∀ r, r ∈ l ↔
        (r ∈ appRefs ∧
          hasSub (lowerStr r).data (lowerStr "para").data = true))) :=
  ⟨by decide, (C7_search "para" appRefs).2.2.2.2.2.2 (by decide)⟩

/-- C8: with an empty cleaned entered list, a detection run in `app.py` is
a no-op with a warning: no results are computed and nothing is appended to
the history log. -/
theorem C8_empty_input_noop (refs : List String) :
    appRun refs [] =
      { warned := true, results := [], historyAppended := [] } :=
  rfl

/-- C9: batch detection is deterministic — equal ordered batches against
equal reference lists produce identical result sequences, for both
scripts. -/
theorem C9_determinism (refs1 refs2 meds1 meds2 : List String)
    (href : refs1 = refs2) (hmed : meds1 = meds2) :
    appDetect refs1 meds1 = appDetect refs2 meds2 ∧
    homeDetect refs1 meds1 = homeDetect refs2 meds2 := by
  subst href
  subst hmed
  exact ⟨rfl, rfl⟩

theorem C9_determinism_witness :
    homeRefs = homeRefs ∧ (["Dolo"] : List String) = ["Dolo"] ∧
    appDetect homeRefs ["Dolo"] = appDetect homeRefs ["Dolo"] ∧
    homeDetect homeRefs ["Dolo"] = homeDetect homeRefs ["Dolo"] :=
  ⟨rfl, rfl, (C9_determinism homeRefs homeRefs ["Dolo"] ["Dolo"] rfl rfl).1,
    (C9_determinism homeRefs homeRefs ["Dolo"] ["Dolo"] rfl rfl).2⟩

/-- C10: in the `Home.py` detector, an entered name that scores 0 against
every entry of a (possibly non-empty) reference list yields the sentinel
`None` as closest match, score 0, and the mismatch flag set, because the
best score starts at 0 and is only replaced on strict improvement. -/
theorem C10_zero_scores_sentinel (refs : List String) (med : String)
    (hne : refs ≠ []) (hz : ∀ r ∈ refs, homeScore med r = 0) :
    homeDetectOne refs med =
      { entered := med, closestMatch := none, matchScore := 0,
        mismatch := true } := by
  have hbest : homeBest med refs = (none, 0) := by
    rw [homeBest]
    exact homeBestAux_const med refs (none, 0) (fun r hr => le_of_eq (hz r hr))
  have hne' := hne
  simp only [homeDetectOne, hbest]
  rfl

theorem C10_zero_scores_sentinel_witness :
    homeRefs ≠ [] ∧ (∀ r ∈ homeRefs, homeScore "Q" r = 0) ∧
    homeDetectOne homeRefs "Q" =
      { entered := "Q", closestMatch := none, matchScore := 0,
        mismatch := true } :=
  ⟨by decide, by decide,
    C10_zero_scores_sentinel homeRefs "Q" (by decide) (by decide)⟩

end ClaimEval

end MMDetector
